import Mathlib

/-!
Verification of the output & formatting utilities of fabric (fabric/utils.py).

The Python module is shallowly embedded:

* Python floats are modelled as exact rationals (ℚ).  Every arithmetic step
  performed by the code on floats in the ranges the claims consider is exact
  in binary floating point (the only divisions are by 1024 = 2^10, which just
  shifts the exponent), so the rational model computes the same values as the
  doubles do whenever the input is exactly representable.
* Python ints are modelled as ℤ; Python 2 `/` on ints is floor division
  (Int.fdiv), `int()` applied to a float truncates toward zero (Int.tdiv of
  numerator by denominator).
* Writes to stdout/stderr are modelled as lists of emitted events; `sys.exit`
  is modelled as a returned catchable unwind signal value.
* The process-wide configuration object `fabric.state.output` / `env` is
  modelled as explicit record arguments.
-/

/-- Two-digit zero padded rendering of a natural number, Python's `"%02d"`
for nonnegative values: numbers below 10 get a leading `0`, larger numbers
are printed in full. -/
def pad2 (n : ℕ) : String :=
  if n < 10 then "0" ++ toString n else toString n

/-- Python's `"%02d"` on an arbitrary int.  Negative values print their sign
and magnitude (already at least two characters, so no padding is added). -/
def pad2i (z : ℤ) : String :=
  if z < 0 then "-" ++ toString (-z).toNat else pad2 z.toNat

/-- Floor of a rational, computed as floor division of numerator by
denominator. -/
def qfloor (q : ℚ) : ℤ := Int.fdiv q.num (q.den : ℤ)

/-- Python `int()` applied to a float: truncation toward zero, i.e.
truncating division of numerator by denominator. -/
def truncQ (q : ℚ) : ℤ := Int.tdiv q.num (q.den : ℤ)

/-- Python `'%d' % x` for a float `x`: truncate toward zero, then print the
integer. -/
def intFmt (q : ℚ) : String := toString (truncQ q)

/-- Python `'%.2f' % x`: round `x` to the nearest hundredth and print with
exactly two decimals.  printf rounds the exact binary value to nearest with
ties to even; a value equal to an odd multiple of 1/200 is never exactly
representable in binary, so ties cannot occur and rounding via
`qfloor (x * 100 + 1/2)` agrees with printf on every reachable value (all
reachable values here are nonnegative). -/
def fmt2f (q : ℚ) : String :=
  let h : ℤ := qfloor (q * 100 + 1 / 2)
  toString (h / 100) ++ "." ++ pad2 (h % 100).toNat

/-- The unit-name table of `human_readable_size`:
`units = ['', 'K', 'M', 'G', 'T', 'P', 'E']`. -/
def unitNames : List String := ["", "K", "M", "G", "T", "P", "E"]

/-- The division loop of `human_readable_size`:
`while size >= 1024 and unit < len(units): size /= 1024; unit += 1`.
The guard `unit < 7` lets the loop run at most 7 times starting from
`unit = 0`, so fuel 7 realises the loop exactly. -/
def sizeLoopFuel : ℕ → ℚ → ℕ → ℚ × ℕ
  | 0, s, u => (s, u)
  | f + 1, s, u =>
    if 1024 ≤ s ∧ u < 7 then sizeLoopFuel f (s / 1024) (u + 1) else (s, u)

/-- `human_readable_size(size)` from fabric/utils.py.  `size = float(size)`
is the ℚ argument; the result is `none` when the final `units[unit]` lookup
is out of range (Python raises `IndexError` there). -/
def human_readable_size (size : ℚ) : Option String :=
  match sizeLoopFuel 7 size 0 with
  | (s, u) =>
    if u = 0 then some (intFmt s ++ " B")
    else (unitNames[u]?).map (fun name => fmt2f s ++ " " ++ name ++ "iB")

/-- The sequential decomposition of `human_readable_seconds`:
`hours = total_secs / 3600; total_secs -= hours * 3600;`
`minutes = total_secs / 60; total_secs -= minutes * 60; seconds = total_secs`.
Python 2 `/` on ints is floor division. -/
def hmsDecomp (t : ℤ) : ℤ × ℤ × ℤ :=
  let hours := Int.fdiv t 3600
  let t1 := t - hours * 3600
  let minutes := Int.fdiv t1 60
  let t2 := t1 - minutes * 60
  (hours, minutes, t2)

/-- The branchy rendering of `human_readable_seconds`: all three fields when
`hours > 0`, two when only `minutes > 0`, the seconds alone otherwise, each
through `"%02d"`. -/
def renderHms : ℤ × ℤ × ℤ → String
  | (hours, minutes, seconds) =>
    if 0 < hours then
      pad2i hours ++ "h" ++ pad2i minutes ++ "min" ++ pad2i seconds ++ "s"
    else if 0 < minutes then
      pad2i minutes ++ "min" ++ pad2i seconds ++ "s"
    else
      pad2i seconds ++ "s"

/-- `human_readable_seconds(secs)` from fabric/utils.py:
`total_secs = int(secs)` (truncation toward zero), then the floor-division
decomposition and the three-way rendering. -/
def human_readable_seconds (secs : ℚ) : String :=
  renderHms (hmsDecomp (truncQ secs))

/-- The Python 2 `str` whitespace set `" \t\n\r\v\f"` used by `str.strip()`. -/
def isPySpace (c : Char) : Bool :=
  c == ' ' || c == '\t' || c == '\n' || c == '\r' || c == '\x0b' || c == '\x0c'

/-- The characters `[ \t]` recognised by `textwrap.dedent`'s regexes. -/
def isIndentChar (c : Char) : Bool := c == ' ' || c == '\t'

/-- Python 2 `str.splitlines()`: split at `\n`, `\r\n` or `\r`, not keeping
the terminators and not producing a final empty line for a trailing
terminator.  The accumulator holds the current line reversed. -/
def splitlinesAux : List Char → List Char → List (List Char)
  | [], acc => if acc.isEmpty then [] else [acc.reverse]
  | '\r' :: '\n' :: rest, acc => acc.reverse :: splitlinesAux rest []
  | c :: rest, acc =>
    if c = '\n' ∨ c = '\r' then acc.reverse :: splitlinesAux rest []
    else splitlinesAux rest (c :: acc)

/-- `text.splitlines()`. -/
def splitlines (l : List Char) : List (List Char) := splitlinesAux l []

/-- Python `text.split('\n')`: split at every `\n`, keeping empty parts. -/
def splitOnNlAux : List Char → List Char → List (List Char)
  | [], acc => [acc.reverse]
  | c :: rest, acc =>
    if c = '\n' then acc.reverse :: splitOnNlAux rest []
    else splitOnNlAux rest (c :: acc)

/-- `text.split('\n')`. -/
def splitOnNl (l : List Char) : List (List Char) := splitOnNlAux l []

/-- Python `'\n'.join(lines)`. -/
def joinNl : List (List Char) → List Char
  | [] => []
  | [l] => l
  | l :: l2 :: ls => l ++ '\n' :: joinNl (l2 :: ls)

/-- Python 2 `str.strip()`: remove leading and trailing characters of the
whitespace set `" \t\n\r\v\f"`. -/
def pyStrip (l : List Char) : List Char :=
  ((l.dropWhile isPySpace).reverse.dropWhile isPySpace).reverse

/-- The margin-accumulating loop of CPython 2.7 `textwrap.dedent`: keep the
running common margin, shrink it when the next indent is a proper prefix of
it, and stop with the empty margin when the two are incomparable. -/
def marginLoop : Option (List Char) → List (List Char) → Option (List Char)
  | m, [] => m
  | none, ind :: rest => marginLoop (some ind) rest
  | some m, ind :: rest =>
    if m.isPrefixOf ind then marginLoop (some m) rest
    else if ind.isPrefixOf m then marginLoop (some ind) rest
    else some []

/-- CPython 2.7 `textwrap.dedent` (the Python standard library routine
called by `indent` when `strip` is true): lines consisting solely of
`[ \t]` are first cleared; the `[ \t]*` indents of the remaining non-blank
lines are collected; their common margin is computed by `marginLoop`; a
nonempty margin is finally removed from the start of every line carrying
it. -/
def dedent (text : List Char) : List Char :=
  let ls := (splitOnNl text).map
    (fun l => if ¬ l.isEmpty ∧ l.all isIndentChar then [] else l)
  let indents := ls.filterMap
    (fun l => if (l.dropWhile isIndentChar).isEmpty then none
              else some (l.takeWhile isIndentChar))
  match marginLoop none indents with
  | none => joinNl ls
  | some [] => joinNl ls
  | some m =>
    joinNl (ls.map (fun l => if m.isPrefixOf l then l.drop m.length else l))

/-- The body of `indent(text, spaces, strip)` after a `text` that is not a
string has been joined with newlines: optional dedent, prefix every line
with `spaces` spaces, `.strip()` the joined result, and re-apply the prefix
in front. -/
def indentChars (text : List Char) (spaces : ℕ) ( strip : Bool) : List Char :=
  List.replicate spaces ' ' ++
    pyStrip (joinNl ((splitlines (if strip then dedent text else text)).map
      (fun l => List.replicate spaces ' ' ++ l)))

/-- `indent(text, spaces, strip)` from fabric/utils.py.  A non-string
argument (modelled by the right summand) is first joined with newlines. -/
def indent (text : String ⊕ List String) (spaces : ℕ) ( strip : Bool) : String :=
  match text with
  | Sum.inl s => String.mk (indentChars s.data spaces strip)
  | Sum.inr ls => String.mk (indentChars (joinNl (ls.map String.data)) spaces strip)

/-- A list with no whitespace at either visible end. -/
def noEdgeWs (l : List Char) : Prop :=
  (∀ c, l.head? = some c → isPySpace c = false) ∧
  (∀ c, l.getLast? = some c → isPySpace c = false)

/-- The output-control flags of `fabric.state.output` read by this module. -/
structure OutputFlags where
  aborts : Bool
  warnings : Bool
  user : Bool

/-- The piece of `fabric.state.env` read by `puts`: the current host
string. -/
structure Env where
  host_string : String

/-- An effect on standard output: a write of a string, or a buffer flush. -/
inductive OutEvent where
  | write (s : String)
  | flush
  deriving DecidableEq

/-- The catchable unwind raised by `sys.exit(status)` (a `SystemExit`
carrying the exit status), as opposed to an unrecoverable crash. -/
inductive Unwind where
  | systemExit (code : ℕ)
  deriving DecidableEq

/-- `abort(msg)` from fabric/utils.py: when `output.aborts` is set, print
the two-line fatal report to stderr (each `print >> sys.stderr` write ends
with a newline); then unconditionally `sys.exit(1)`.  The result is the
list of stderr writes together with the raised unwind. -/
def abort (output : OutputFlags) (msg : String) : List String × Unwind :=
  ((if output.aborts
    then ["\nFatal error: " ++ msg ++ "\n", "\nAborting.\n"]
    else []),
   Unwind.systemExit 1)

/-- `warn(msg)` from fabric/utils.py: a single stderr write when
`output.warnings` is set. -/
def warn (output : OutputFlags) (msg : String) : List String :=
  if output.warnings then ["\nWarning: " ++ msg ++ "\n" ++ "\n"] else []

/-- `puts(text, show_prefix, end, flush)` from fabric/utils.py (the Bool
argument is the source's `show_prefix`, the trailing String the source's
`end`): nothing happens unless `output.user` is set; otherwise one stdout
write of prefix + text + end occurs, where the `"[<host>] "` prefix appears
exactly when `env.host_string` is truthy (non-empty) and `show_prefix`
holds, followed by a flush when requested. -/
def puts (output : OutputFlags) (env : Env) (text : String)
    (showPfx : Bool) (endStr : String) (flushArg : Bool) : List OutEvent :=
  if output.user then
    OutEvent.write
        ((if env.host_string ≠ "" ∧ showPfx
          then "[" ++ env.host_string ++ "] " else "") ++ text ++ endStr) ::
      (if flushArg then [OutEvent.flush] else [])
  else []

/-- `fastprint(text)` from fabric/utils.py: `puts` with the defaults
`show_prefix=False, end="", flush=True`. -/
def fastprint (output : OutputFlags) (env : Env) (text : String) : List OutEvent :=
  puts output env text false "" true

/-- If the starting value is below `1024 ^ (m + 1)`, the division loop
increments the unit counter at most `m` times. -/
theorem sizeLoopFuel_snd_le (f : ℕ) :
    ∀ (s : ℚ) (u m : ℕ), s < 1024 ^ (m + 1) → (sizeLoopFuel f s u).2 ≤ u + m := by
  induction f with
  | zero => intro s u m _; exact Nat.le_add_right u m
  | succ f ih =>
    intro s u m h
    rw [sizeLoopFuel]
    split
    · rename_i hcond
      obtain ⟨h1024, _⟩ := hcond
      match m with
      | 0 =>
        exfalso
        rw [pow_one] at h
        exact absurd h (not_lt.mpr h1024)
      | m' + 1 =>
        have hdiv : s / 1024 < 1024 ^ (m' + 1) := by
          rw [div_lt_iff₀ (by norm_num : (0 : ℚ) < 1024)]
          calc s < 1024 ^ (m' + 1 + 1) := h
          _ = 1024 ^ (m' + 1) * 1024 := by rw [pow_succ]
        have := ih (s / 1024) (u + 1) m' hdiv
        omega
    · exact Nat.le_add_right u m

/-- C1: the spec claims that for sizes at or beyond `1024^7` the formatter
caps at the largest unit `'E'` and still returns an `"<X.XX> EiB"` string.
In the code the loop guard `unit < len(units)` is off by one: `unit` reaches
7 and `units[7]` is out of range, so `human_readable_size(1024**7)` raises
`IndexError` instead of returning a capped string. -/
theorem human_readable_size_overflow_indexerror :
    human_readable_size ((1024 : ℚ) ^ 7) = none := by
  norm_num [human_readable_size, sizeLoopFuel, unitNames]

/-- C2: on the documented domain (0 up to and including `1024^6`) the
formatter never fails: the loop leaves a unit index of at most 6 (a valid
index into the seven unit names), and the result is the integer-byte form
when zero divisions occurred and otherwise the two-decimal form tagged with
the unit name selected by the number of divisions performed.  The four
example values of the spec are also checked. -/
theorem human_readable_size_domain (q : ℚ) (h0 : 0 ≤ q) (h1 : q ≤ (1024 : ℚ) ^ 6) :
    ((sizeLoopFuel 7 q 0).2 ≤ 6 ∧
      human_readable_size q =
        some (if (sizeLoopFuel 7 q 0).2 = 0
              then intFmt (sizeLoopFuel 7 q 0).1 ++ " B"
              else fmt2f (sizeLoopFuel 7 q 0).1 ++ " " ++
                   unitNames.getD (sizeLoopFuel 7 q 0).2 "" ++ "iB")) ∧
    (human_readable_size 0 = some "0 B" ∧
     human_readable_size 1024 = some "1.00 KiB" ∧
     human_readable_size ((1024 : ℚ) ^ 2) = some "1.00 MiB" ∧
     human_readable_size ((1024 : ℚ) ^ 6) = some "1.00 EiB") := by
  have hlt : q < 1024 ^ (6 + 1) := lt_of_le_of_lt h1 (by norm_num)
  have hu : (sizeLoopFuel 7 q 0).2 ≤ 6 := by
    have := sizeLoopFuel_snd_le 7 q 0 6 hlt
    omega
  refine ⟨⟨hu, ?_⟩, ?_, ?_, ?_, ?_⟩
  · rcases hsz : sizeLoopFuel 7 q 0 with ⟨s, u⟩
    rw [hsz] at hu
    rw [human_readable_size, hsz]
    simp only
    interval_cases u <;> simp [unitNames]
  · norm_num [human_readable_size, sizeLoopFuel, intFmt, truncQ]
    decide
  · norm_num [human_readable_size, sizeLoopFuel, unitNames, fmt2f, qfloor]
    decide
  · norm_num [human_readable_size, sizeLoopFuel, unitNames, fmt2f, qfloor]
    decide
  · norm_num [human_readable_size, sizeLoopFuel, unitNames, fmt2f, qfloor]
    decide

/-- Witness for C2 at the concrete input 1024. -/
theorem human_readable_size_domain_witness :
    ((sizeLoopFuel 7 (1024 : ℚ) 0).2 ≤ 6 ∧
      human_readable_size 1024 =
        some (if (sizeLoopFuel 7 (1024 : ℚ) 0).2 = 0
              then intFmt (sizeLoopFuel 7 (1024 : ℚ) 0).1 ++ " B"
              else fmt2f (sizeLoopFuel 7 (1024 : ℚ) 0).1 ++ " " ++
                   unitNames.getD (sizeLoopFuel 7 (1024 : ℚ) 0).2 "" ++ "iB")) ∧
    (human_readable_size 0 = some "0 B" ∧
     human_readable_size 1024 = some "1.00 KiB" ∧
     human_readable_size ((1024 : ℚ) ^ 2) = some "1.00 MiB" ∧
     human_readable_size ((1024 : ℚ) ^ 6) = some "1.00 EiB") :=
  human_readable_size_domain 1024 (by norm_num) (by norm_num)

/-- The floor-division decomposition written with Euclidean `/` and `%`. -/
theorem hmsDecomp_eq (t : ℤ) :
    hmsDecomp t = (t / 3600, t % 3600 / 60, t % 3600 % 60) := by
  have h1 : Int.fdiv t 3600 = t / 3600 := Int.fdiv_eq_ediv t (by norm_num)
  have e1 : t - Int.fdiv t 3600 * 3600 = t % 3600 := by rw [h1]; omega
  have h2 : Int.fdiv (t % 3600) 60 = t % 3600 / 60 := Int.fdiv_eq_ediv _ (by norm_num)
  have e2 : t % 3600 - Int.fdiv (t % 3600) 60 * 60 = t % 3600 % 60 := by rw [h2]; omega
  simp only [hmsDecomp]
  rw [e1, h2, h1]
  simp only [Prod.mk.injEq]
  exact ⟨trivial, trivial, by omega⟩

/-- `"%02d"` on a nonnegative int is `"%02d"` on the natural number. -/
theorem pad2i_natCast (k : ℕ) : pad2i (k : ℤ) = pad2 k := by
  rw [pad2i, if_neg (by omega : ¬ ((k : ℤ) < 0)), Int.toNat_natCast]

/-- For a nonnegative input, `int(secs)` is nonnegative. -/
theorem truncQ_nonneg (q : ℚ) (h : 0 ≤ q) : 0 ≤ truncQ q :=
  Int.tdiv_nonneg (Rat.num_nonneg.mpr h) (by positivity)

/-- C3: for every nonnegative secs, `human_readable_seconds` truncates to an
integer and renders the hours/minutes/seconds decomposition as
`"HHhMMminSSs"` when hours are present, `"MMminSSs"` when only minutes are,
and `"SSs"` otherwise, with the spec's three example values checked. -/
theorem human_readable_seconds_nonneg_spec (q : ℚ) (h : 0 ≤ q) :
    (human_readable_seconds q =
      (if 0 < (truncQ q).toNat / 3600 then
         pad2 ((truncQ q).toNat / 3600) ++ "h" ++ pad2 ((truncQ q).toNat % 3600 / 60) ++
           "min" ++ pad2 ((truncQ q).toNat % 60) ++ "s"
       else if 0 < (truncQ q).toNat % 3600 / 60 then
         pad2 ((truncQ q).toNat % 3600 / 60) ++ "min" ++ pad2 ((truncQ q).toNat % 60) ++ "s"
       else pad2 ((truncQ q).toNat % 60) ++ "s")) ∧
    human_readable_seconds 10 = "10s" ∧
    human_readable_seconds 60 = "01min00s" ∧
    human_readable_seconds 3600 = "01h00min00s" := by
  refine ⟨?_, ?_, ?_, ?_⟩
  · have ht : 0 ≤ truncQ q := truncQ_nonneg q h
    rw [human_readable_seconds, hmsDecomp_eq]
    have e1 : truncQ q / 3600 = (((truncQ q).toNat / 3600 : ℕ) : ℤ) := by omega
    have e2 : truncQ q % 3600 / 60 = (((truncQ q).toNat % 3600 / 60 : ℕ) : ℤ) := by omega
    have e3 : truncQ q % 3600 % 60 = (((truncQ q).toNat % 60 : ℕ) : ℤ) := by omega
    rw [e1, e2, e3]
    simp only [renderHms, pad2i_natCast, Nat.cast_pos]
  · norm_num [human_readable_seconds, truncQ, hmsDecomp, renderHms, pad2i, pad2]
    decide
  · norm_num [human_readable_seconds, truncQ, hmsDecomp, renderHms, pad2i, pad2]
    decide
  · norm_num [human_readable_seconds, truncQ, hmsDecomp, renderHms, pad2i, pad2]
    decide

/-- Witness for C3 at the concrete input 3600. -/
theorem human_readable_seconds_nonneg_spec_witness :
    (human_readable_seconds 3600 =
      (if 0 < (truncQ 3600).toNat / 3600 then
         pad2 ((truncQ 3600).toNat / 3600) ++ "h" ++ pad2 ((truncQ 3600).toNat % 3600 / 60) ++
           "min" ++ pad2 ((truncQ 3600).toNat % 60) ++ "s"
       else if 0 < (truncQ 3600).toNat % 3600 / 60 then
         pad2 ((truncQ 3600).toNat % 3600 / 60) ++ "min" ++ pad2 ((truncQ 3600).toNat % 60) ++ "s"
       else pad2 ((truncQ 3600).toNat % 60) ++ "s")) ∧
    human_readable_seconds 10 = "10s" ∧
    human_readable_seconds 60 = "01min00s" ∧
    human_readable_seconds 3600 = "01h00min00s" :=
  human_readable_seconds_nonneg_spec 3600 (by norm_num)

/-- C4 counterexample: the claim says negative seconds fail fast with a clear
error, but the code silently returns a formatted string: `int(-10)` is -10,
Python 2 floor division gives hours = -1, and the wrapped remainder renders
as `"59min50s"`. -/
theorem human_readable_seconds_neg_counterexample :
    human_readable_seconds (-10) = "59min50s" := by
  norm_num [human_readable_seconds, truncQ, hmsDecomp, renderHms, pad2i, pad2]
  decide

/-- C4 amended: for every negative secs, `human_readable_seconds` does not
fail at all; the hours branch is never taken and the call silently returns a
short wrapped rendering `"MMminSSs"` or `"SSs"` with both displayed fields in
[0, 60). -/
theorem human_readable_seconds_neg_silent (q : ℚ) (h : q < 0) :
    ∃ m s : ℕ, m < 60 ∧ s < 60 ∧
      human_readable_seconds q =
        (if 0 < m then pad2 m ++ "min" ++ pad2 s ++ "s" else pad2 s ++ "s") := by
  have hnum : q.num < 0 := Rat.num_neg.mpr h
  have ht : truncQ q ≤ 0 := by
    have h1 : 0 ≤ Int.tdiv (-q.num) (q.den : ℤ) :=
      Int.tdiv_nonneg (by omega) (by positivity)
    have h2 : Int.tdiv (-q.num) (q.den : ℤ) = -(Int.tdiv q.num (q.den : ℤ)) :=
      Int.neg_tdiv q.num (q.den : ℤ)
    rw [truncQ]
    omega
  rw [human_readable_seconds, hmsDecomp_eq]
  refine ⟨(truncQ q % 3600 / 60).toNat, (truncQ q % 3600 % 60).toNat,
    by omega, by omega, ?_⟩
  have e2 : truncQ q % 3600 / 60 = (((truncQ q % 3600 / 60).toNat : ℕ) : ℤ) := by omega
  have e3 : truncQ q % 3600 % 60 = (((truncQ q % 3600 % 60).toNat : ℕ) : ℤ) := by omega
  rw [e2, e3]
  simp only [renderHms, pad2i_natCast, Nat.cast_pos, Int.toNat_natCast]
  rw [if_neg (by omega : ¬ (0 < truncQ q / 3600))]

/-- Witness for the amended C4 at the concrete input -10. -/
theorem human_readable_seconds_neg_silent_witness :
    ∃ m s : ℕ, m < 60 ∧ s < 60 ∧
      human_readable_seconds (-10) =
        (if 0 < m then pad2 m ++ "min" ++ pad2 s ++ "s" else pad2 s ++ "s") :=
  human_readable_seconds_neg_silent (-10) (by norm_num)

/-- With `strip = False` the dedent step is skipped. -/
theorem indentChars_false (text : List Char) (n : ℕ) :
    indentChars text n false =
      List.replicate n ' ' ++
        pyStrip (joinNl ((splitlines text).map
          (fun l => List.replicate n ' ' ++ l))) := rfl

/-- Prepending to a nonempty list does not change its last element. -/
theorem getLast?_cons_ne (a : Char) (l : List Char) (h : l ≠ []) :
    (a :: l).getLast? = l.getLast? := by
  cases l with
  | nil => exact absurd rfl h
  | cons b t => exact List.getLast?_cons_cons

/-- The last element of an append with a nonempty right part. -/
theorem getLast?_append_right (u v : List Char) (h : v ≠ []) :
    (u ++ v).getLast? = v.getLast? := by
  induction u with
  | nil => rfl
  | cons a u ih =>
    rw [List.cons_append, getLast?_cons_ne a (u ++ v) ?_, ih]
    intro he
    exact h (List.append_eq_nil.mp he).2

/-- Dropping over a block that satisfies the predicate throughout. -/
theorem dropWhile_all {p : Char → Bool} (u v : List Char)
    (hu : ∀ c ∈ u, p c = true) :
    (u ++ v).dropWhile p = v.dropWhile p := by
  induction u with
  | nil => rfl
  | cons a u ih =>
    rw [List.cons_append, List.dropWhile_cons, if_pos (hu a (by simp))]
    exact ih (fun c hc => hu c (by simp [hc]))

/-- A list whose head falsifies the predicate is left unchanged by
`dropWhile`. -/
theorem dropWhile_head_false {p : Char → Bool} (l : List Char) (c : Char)
    (h1 : l.head? = some c) (h2 : p c = false) : l.dropWhile p = l := by
  cases l with
  | nil => simp at h1
  | cons a t =>
    obtain rfl : a = c := by simpa using h1
    rw [List.dropWhile_cons, if_neg (by simp [h2])]

/-- The head surviving a `dropWhile` falsifies the predicate. -/
theorem head?_dropWhile_false {p : Char → Bool} (l : List Char) :
    ∀ c, (l.dropWhile p).head? = some c → p c = false := by
  induction l with
  | nil => intro c hc; simp [List.dropWhile] at hc
  | cons a t ih =>
    intro c hc
    rw [List.dropWhile_cons] at hc
    by_cases hp : p a = true
    · rw [if_pos hp] at hc
      exact ih c hc
    · rw [if_neg hp] at hc
      obtain rfl : a = c := by simpa using hc
      simpa using hp

/-- `dropWhile` only removes a prefix, so a nonempty result keeps the last
element. -/
theorem getLast?_dropWhile {p : Char → Bool} (l : List Char)
    (h : l.dropWhile p ≠ []) : (l.dropWhile p).getLast? = l.getLast? := by
  induction l with
  | nil => simp [List.dropWhile] at h
  | cons a t ih =>
    rw [List.dropWhile_cons] at h ⊢
    by_cases hp : p a = true
    · rw [if_pos hp] at h ⊢
      have ht : t ≠ [] := by
        intro he
        rw [he] at h
        simp [List.dropWhile] at h
      rw [ih h, getLast?_cons_ne a t ht]
    · rw [if_neg hp]

/-- `splitlines` on a chunk with no line breaks: the chunk merges with the
pending accumulator into a single final line (or nothing if both are
empty). -/
theorem splitlinesAux_no_break (l : List Char)
    (hl : ∀ c ∈ l, c ≠ '\n' ∧ c ≠ '\r') :
    ∀ acc : List Char,
      splitlinesAux l acc = if acc = [] ∧ l = [] then [] else [acc.reverse ++ l] := by
  induction l with
  | nil =>
    intro acc
    by_cases ha : acc = [] <;> simp [splitlinesAux, ha, List.isEmpty_iff]
  | cons c t ih =>
    intro acc
    have hc := hl c (by simp)
    have ht : ∀ x ∈ t, x ≠ '\n' ∧ x ≠ '\r' := fun x hx => hl x (by simp [hx])
    rw [splitlinesAux]
    · rw [if_neg (by tauto : ¬ (c = '\n' ∨ c = '\r')), ih ht (c :: acc),
        if_neg (by simp), if_neg (by simp)]
      simp
    · intro r h1 h2
      exact hc.2 h1

/-- `splitlines` across a `\n` following a break-free chunk: the chunk
closes the current line and splitting continues on the remainder. -/
theorem splitlinesAux_break (l : List Char)
    (hl : ∀ c ∈ l, c ≠ '\n' ∧ c ≠ '\r') :
    ∀ acc rest : List Char,
      splitlinesAux (l ++ '\n' :: rest) acc =
        (acc.reverse ++ l) :: splitlinesAux rest [] := by
  induction l with
  | nil =>
    intro acc rest
    rw [List.nil_append, splitlinesAux]
    · rw [if_pos (Or.inl rfl)]
      simp
    · intro r h1 h2
      exact absurd h1 (by decide)
  | cons c t ih =>
    intro acc rest
    have hc := hl c (by simp)
    have ht : ∀ x ∈ t, x ≠ '\n' ∧ x ≠ '\r' := fun x hx => hl x (by simp [hx])
    rw [List.cons_append, splitlinesAux]
    · rw [if_neg (by tauto : ¬ (c = '\n' ∨ c = '\r')), ih ht (c :: acc) rest]
      simp
    · intro r h1 h2
      exact hc.2 h1

/-- Splitting a two-line text at its single newline. -/
theorem splitlines_pair (x y : List Char)
    (hx : ∀ c ∈ x, c ≠ '\n' ∧ c ≠ '\r') (hy : ∀ c ∈ y, c ≠ '\n' ∧ c ≠ '\r')
    (hy0 : y ≠ []) :
    splitlines (x ++ '\n' :: y) = [x, y] := by
  rw [splitlines, splitlinesAux_break x hx [] y, splitlinesAux_no_break y hy [],
    if_neg (by simp [hy0])]
  simp

/-- `str.strip()` leaves no whitespace at either end of its result. -/
theorem noEdgeWs_pyStrip (l : List Char) : noEdgeWs (pyStrip l) := by
  constructor
  · intro c hc
    rw [pyStrip, List.head?_reverse] at hc
    by_cases hX : List.dropWhile isPySpace (List.dropWhile isPySpace l).reverse = []
    · rw [hX] at hc
      simp at hc
    · rw [getLast?_dropWhile _ hX, List.getLast?_reverse] at hc
      exact head?_dropWhile_false l c hc
  · intro c hc
    rw [pyStrip, List.getLast?_reverse] at hc
    exact head?_dropWhile_false _ c hc

/-- C5 counterexample: the claim implies the first line's own leading
whitespace survives when `strip` is false, so `indent("  a", 2)` would be
`"    a"`; the code's `.strip()` removes that whitespace and yields
`"  a"`. -/
theorem indent_first_ws_counterexample :
    indent (Sum.inl "  a") 2 false = "  a" ∧
    indent (Sum.inl "  a") 2 false ≠ "    a" := by
  constructor <;> decide

/-- C5 amended: after prefixing every line, `indent` strips all leading and
trailing whitespace characters of the joined result (not merely blank
lines) before re-applying the prefix, so the part after the re-applied
prefix starts and ends with non-whitespace (when nonempty); in particular
leading whitespace of the first non-blank line is not preserved. -/
theorem indent_trims_all_edge_whitespace (s : String) (n : ℕ) :
    ∃ core : List Char,
      indent (Sum.inl s) n false = String.mk (List.replicate n ' ' ++ core) ∧
      noEdgeWs core :=
  ⟨pyStrip (joinNl ((splitlines s.data).map (fun l => List.replicate n ' ' ++ l))),
    rfl, noEdgeWs_pyStrip _⟩

/-- C6: a sequence of line strings is normalised by joining with newlines
before indenting, so the list call and the joined-string call agree for
every spaces/strip combination; the spec's two concrete examples are also
checked. -/
theorem indent_list_join_equiv :
    (∀ (L : List String) (n : ℕ) (st : Bool),
      indent (Sum.inr L) n st =
        indent (Sum.inl (String.mk (joinNl (L.map String.data)))) n st) ∧
    indent (Sum.inr ["a", "b"]) 4 false = indent (Sum.inl "a\nb") 4 false ∧
    indent (Sum.inl "a\nb") 2 false = "  a\n  b" :=
  ⟨fun L n st => rfl, by decide, by decide⟩

/-- C10: for a two-line input whose first line carries its own leading
whitespace, `indent` with `strip = False` returns a first line consisting of
exactly `spaces` spaces followed by the left-stripped first-line content,
while the second line keeps its content (including any leading whitespace)
behind the added prefix. -/
theorem indent_drops_first_line_indent
    (w a b : List Char) (n : ℕ)
    (hw : w ≠ []) (hwc : ∀ c ∈ w, isPySpace c = true ∧ c ≠ '\n' ∧ c ≠ '\r')
    (ha : a ≠ []) (hac : ∀ c ∈ a, c ≠ '\n' ∧ c ≠ '\r')
    (hah : ∀ c, a.head? = some c → isPySpace c = false)
    (hb : b ≠ []) (hbc : ∀ c ∈ b, c ≠ '\n' ∧ c ≠ '\r')
    (hbl : ∀ c, b.getLast? = some c → isPySpace c = false) :
    indent (Sum.inl (String.mk (w ++ a ++ '\n' :: b))) n false =
      String.mk (List.replicate n ' ' ++ a ++ '\n' :: (List.replicate n ' ' ++ b)) := by
  have hxa : ∀ c ∈ w ++ a, c ≠ '\n' ∧ c ≠ '\r' := by
    intro c hcm
    rcases List.mem_append.mp hcm with h | h
    · exact (hwc c h).2
    · exact hac c h
  have pfxAll : ∀ c ∈ List.replicate n ' ', isPySpace c = true := by
    intro c hc
    rw [List.eq_of_mem_replicate hc]
    decide
  obtain ⟨ahd, atl, rfl⟩ : ∃ h t, a = h :: t := by
    cases a with
    | nil => exact absurd rfl ha
    | cons h t => exact ⟨h, t, rfl⟩
  obtain ⟨blast, hblast⟩ : ∃ c, b.getLast? = some c := by
    cases hgl : b.getLast? with
    | some c => exact ⟨c, rfl⟩
    | none => exact absurd (List.getLast?_eq_none_iff.mp hgl) hb
  have hblastws : isPySpace blast = false := hbl blast hblast
  show String.mk (indentChars (w ++ (ahd :: atl) ++ '\n' :: b) n false) = _
  refine congrArg String.mk ?_
  rw [indentChars_false,
    splitlines_pair (w ++ (ahd :: atl)) b hxa hbc hb,
    List.map_cons, List.map_cons, List.map_nil,
    show ∀ x y : List Char, joinNl [x, y] = x ++ '\n' :: y from fun x y => rfl]
  have h2 : List.dropWhile isPySpace
      ((List.replicate n ' ' ++ (w ++ (ahd :: atl))) ++
        '\n' :: (List.replicate n ' ' ++ b)) =
      (ahd :: atl) ++ '\n' :: (List.replicate n ' ' ++ b) := by
    rw [List.append_assoc, dropWhile_all _ _ pfxAll, List.append_assoc,
      dropWhile_all _ _ (fun c hc => (hwc c hc).1)]
    exact dropWhile_head_false _ ahd rfl (hah ahd rfl)
  rw [pyStrip, h2]
  have h3 : List.dropWhile isPySpace
      ((ahd :: atl) ++ '\n' :: (List.replicate n ' ' ++ b)).reverse =
      ((ahd :: atl) ++ '\n' :: (List.replicate n ' ' ++ b)).reverse := by
    refine dropWhile_head_false _ blast ?_ hblastws
    rw [List.head?_reverse,
      getLast?_append_right _ _ (by simp),
      getLast?_cons_ne _ _ (by
        intro he
        exact hb (List.append_eq_nil.mp he).2),
      getLast?_append_right _ _ hb]
    exact hblast
  rw [h3, List.reverse_reverse]
  simp [List.append_assoc]

/-- Witness for C10: `indent("  a\nb", 2)` is `"  a\n  b"`. -/
theorem indent_drops_first_line_indent_witness :
    indent (Sum.inl (String.mk ([' ', ' '] ++ ['a'] ++ '\n' :: ['b']))) 2 false =
      String.mk (List.replicate 2 ' ' ++ ['a'] ++ '\n' :: (List.replicate 2 ' ' ++ ['b'])) :=
  indent_drops_first_line_indent [' ', ' '] ['a'] ['b'] 2
    (by decide) (by decide) (by decide) (by decide)
    (fun c hc => by
      obtain rfl : 'a' = c := by simpa using hc
      decide)
    (by decide) (by decide)
    (fun c hc => by
      obtain rfl : 'b' = c := by simpa using hc
      decide)

/-- C7: with the user-output flag disabled, `puts` is a complete no-op: no
write and no flush reach standard output, whatever the arguments. -/
theorem puts_disabled_silent (o : OutputFlags) (e : Env) (text : String)
    (sp : Bool) (endStr : String) (fl : Bool) (h : o.user = false) :
    puts o e text sp endStr fl = [] := by
  simp [puts, h]

/-- Witness for C7 with all outputs requested but the user flag off. -/
theorem puts_disabled_silent_witness :
    puts ⟨true, true, false⟩ ⟨"h1"⟩ "hello" true "\n" true = [] :=
  puts_disabled_silent ⟨true, true, false⟩ ⟨"h1"⟩ "hello" true "\n" true rfl

/-- C8: with the user-output flag enabled, `puts` writes prefix + text +
end (and flushes only on request), the prefix being `"[<host>] "` exactly
when `show_prefix` holds and the host string is non-empty: an empty host
suppresses the prefix for either value of `show_prefix`, and host `"h1"`
with `show_prefix` makes the written string begin with `"[h1] "`. -/
theorem puts_enabled_writes (o : OutputFlags) (e : Env) (text : String)
    (sp : Bool) (endStr : String) (fl : Bool) (h : o.user = true) :
    (puts o e text sp endStr fl =
      OutEvent.write
          ((if e.host_string ≠ "" ∧ sp
            then "[" ++ e.host_string ++ "] " else "") ++ text ++ endStr) ::
        (if fl then [OutEvent.flush] else [])) ∧
    (e.host_string = "" →
      puts o e text sp endStr fl =
        OutEvent.write (text ++ endStr) :: (if fl then [OutEvent.flush] else [])) ∧
    (e.host_string = "h1" → sp = true →
      ∃ rest : String,
        puts o e text sp endStr fl =
          OutEvent.write ("[h1] " ++ rest) :: (if fl then [OutEvent.flush] else [])) := by
  refine ⟨by simp [puts, h], ?_, ?_⟩
  · intro he
    simp [puts, h, he]
  · intro he hsp
    exact ⟨text ++ endStr, by simp [puts, h, he, hsp, String.append_assoc]⟩

/-- Witness for C8 with the host set to `"h1"`. -/
theorem puts_enabled_writes_witness :
    (puts ⟨false, false, true⟩ ⟨"h1"⟩ "x" true "\n" false =
      OutEvent.write
          ((if ("h1" : String) ≠ "" ∧ true then "[" ++ "h1" ++ "] " else "") ++
            "x" ++ "\n") ::
        (if false then [OutEvent.flush] else [])) ∧
    (("h1" : String) = "" →
      puts ⟨false, false, true⟩ ⟨"h1"⟩ "x" true "\n" false =
        OutEvent.write ("x" ++ "\n") :: (if false then [OutEvent.flush] else [])) ∧
    (("h1" : String) = "h1" → true = true →
      ∃ rest : String,
        puts ⟨false, false, true⟩ ⟨"h1"⟩ "x" true "\n" false =
          OutEvent.write ("[h1] " ++ rest) :: (if false then [OutEvent.flush] else [])) :=
  puts_enabled_writes ⟨false, false, true⟩ ⟨"h1"⟩ "x" true "\n" false rfl

/-- C9: `abort` always raises the catchable `SystemExit`-style unwind with
exit status 1, and it emits the two-line fatal-error report on stderr if
and only if the aborts flag is enabled (nothing is written otherwise). -/
theorem abort_exit_and_report (o : OutputFlags) (msg : String) :
    (abort o msg).2 = Unwind.systemExit 1 ∧
    ((abort o msg).1 =
        ["\nFatal error: " ++ msg ++ "\n", "\nAborting.\n"] ↔ o.aborts = true) ∧
    (o.aborts = false → (abort o msg).1 = []) := by
  cases h : o.aborts <;> simp [abort, h]
